import Mathlib

/-!
# Verification of the text_to_csv data-quality pipeline

A shallow embedding of the pipeline in `src/data_converter.py`:
schema normalization (column strip + `Last` → `Close` rename),
timestamp construction (`Date`/`Time` merge, best-effort parsing with
row drops), chronological ordering and duplicate resolution
(sort + `drop_duplicates(keep="first")`), and the date-range filter.

Modelling conventions:
* A dataframe is a `Table`: a header (list of column names) and a list of
  rows, each row a positional list of `Cell`s.  A `Cell` is a raw text
  field (`Cell.str`, as produced by `read_csv`), a parsed timestamp
  (`Cell.ts`, pandas `datetime64`), or a missing value (`Cell.na`,
  pandas `NaN`/`NaT`).
* Timestamps are abstract instants measured in seconds (`Nat`); a
  calendar rendering is irrelevant to the pipeline logic.  The output
  text format `"%m/%d/%Y %H:%M"` is modelled by its two essential
  properties: it is injective on minutes and it truncates seconds.
* `pd.to_datetime(..., errors="coerce", infer_datetime_format=True)` is
  best-effort format inference; it is modelled by an arbitrary function
  `parse : String → Option Nat` over which the theorems quantify.
* `df.sort_values(by="Date")` is modelled by a stable insertion sort on
  the timestamp key.  pandas' default sorting kind (`quicksort`) is not
  stable; the divergence on tied keys is analysed separately via a
  faithful embedding of numpy's introsort (`npyArgsort` below).
* Columns are addressed by the first occurrence of their label, as
  pandas does for a uniquely-labelled dataframe.
-/

/-- One dataframe field: raw text from `read_csv`, a parsed timestamp
(`datetime64`, an abstract instant in seconds), or a missing value
(`NaN`/`NaT`). -/
inductive Cell where
  | str (s : String)
  | ts (n : Nat)
  | na

deriving instance DecidableEq, Repr for Cell

/-- A dataframe: a header of column names and positional rows. -/
structure Table where
  header : List String
  rows : List (List Cell)

deriving instance DecidableEq, Repr for Table

/-- Python `str.strip()` on a column name: drop leading and trailing
whitespace (source line 30, `df.columns.str.strip()`). -/
def pyStrip (s : String) : String :=
  String.mk (((s.data.dropWhile Char.isWhitespace).reverse.dropWhile Char.isWhitespace).reverse)

/-- First occurrence of a column label in a header, as in pandas column
addressing. -/
def colIdxAux (name : String) : List String → Option Nat
  | [] => none
  | h :: hs => if h = name then some 0 else (colIdxAux name hs).map (· + 1)

/-- Index of the first column with the given label. -/
def colIdx? (t : Table) (name : String) : Option Nat :=
  colIdxAux name t.header

/-- The cell of a row at a column position; missing positions read as
`NaN`, as pandas pads short rows on ingestion. -/
def cellAt (r : List Cell) (i : Nat) : Cell :=
  r.getD i Cell.na

/-- Pad a row with `NaN` up to the given length. -/
def padTo (n : Nat) (r : List Cell) : List Cell :=
  r ++ List.replicate (n - r.length) Cell.na

/-- Column assignment `df[c] = v` at one row: every row has the assigned
column afterwards (pandas pads with `NaN`). -/
def setCell (r : List Cell) (i : Nat) (c : Cell) : List Cell :=
  (padTo (i + 1) r).set i c

/-- Python `str()` of a cell, as `astype(str)` renders it (source
line 40); missing values render as `"nan"`. -/
def Cell.asText : Cell → String
  | .str s => s
  | .ts n => toString n
  | .na => "nan"

/-- Is the cell a successfully parsed timestamp? -/
def Cell.isTs : Cell → Bool
  | .ts _ => true
  | _ => false

/-- The instant held by a timestamp cell (0 otherwise; only read on
parsed cells). -/
def Cell.tsVal : Cell → Nat
  | .ts n => n
  | _ => 0

/-- The sort/filter key of a row: the instant in its `Date` column. -/
def rowKey (di : Nat) (r : List Cell) : Nat :=
  (cellAt r di).tsVal

/-- `pd.to_datetime(x, errors="coerce")` on one cell as an optional
instant: strings go through the inference parser, parsed timestamps are
unchanged, missing values stay missing. -/
def Cell.toDatetimeOpt (parse : String → Option Nat) : Cell → Option Nat
  | .str s => parse s
  | .ts n => some n
  | .na => none

/-- `pd.to_datetime(x, errors="coerce")` on one cell; failures coerce to
`NaT` (source lines 42-46 and 69). -/
def Cell.toDatetimeCell (parse : String → Option Nat) (c : Cell) : Cell :=
  match c.toDatetimeOpt parse with
  | some n => Cell.ts n
  | none => Cell.na

/-- Schema Normalizer (source lines 30-34): strip whitespace from all
column names, then rename a literal `Last` column to `Close` when one
exists.  Row values are untouched. -/
def cleanColumns (t : Table) : Table :=
  let stripped := t.header.map pyStrip
  if stripped.contains "Last" then
    { header := stripped.map (fun c => if c = "Last" then "Close" else c), rows := t.rows }
  else
    { header := stripped, rows := t.rows }

/-- Drop cells of a row that sit in columns with the given label
(`df.drop(columns=[name])`, applied positionally against the header). -/
def dropNamed (name : String) : List String → List Cell → List Cell
  | [], _ => []
  | _, [] => []
  | h :: hs, c :: cs =>
    if h = name then dropNamed name hs cs else c :: dropNamed name hs cs

/-- `df.drop(columns=[name])`: remove every column carrying the label. -/
def dropCol (name : String) (t : Table) : Table :=
  { header := t.header.filter (fun c => c ≠ name),
    rows := t.rows.map (dropNamed name t.header) }

/-- The text handed to `to_datetime` in the combine step: the `Date`
cell and the `Time` cell as text, joined by one space (source line 40). -/
def concatDT (di ti : Nat) (r : List Cell) : String :=
  (cellAt r di).asText ++ " " ++ (cellAt r ti).asText

/-- Timestamp Builder, combined case (source lines 37-58): when both a
`Date` and a `Time` column exist, parse `Date + " " + Time` per row into
the `Date` column (`NaT` on failure), count the failures, drop the
failed rows when there are any, and drop the `Time` column.  Returns the
new table and the reported count of dropped rows.  Without both columns
the table passes through unchanged. -/
def combineDateTime (parse : String → Option Nat) (t : Table) : Table × Nat :=
  match colIdx? t "Date", colIdx? t "Time" with
  | some di, some ti =>
    let parsedRows := t.rows.map (fun r =>
      setCell r di (match parse (concatDT di ti r) with
        | some n => Cell.ts n
        | none => Cell.na))
    let invalid := parsedRows.countP (fun r => cellAt r di == Cell.na)
    let kept := if invalid ≠ 0 then
        parsedRows.filter (fun r => !(cellAt r di == Cell.na))
      else parsedRows
    (dropCol "Time" { header := t.header, rows := kept }, invalid)
  | _, _ => (t, 0)

/-- `to_datetime` over the whole `Date` column (source line 69). -/
def parseDateColumn (parse : String → Option Nat) (di : Nat)
    (rows : List (List Cell)) : List (List Cell) :=
  rows.map (fun r => setCell r di ((cellAt r di).toDatetimeCell parse))

/-- Source lines 70-72: when any `Date` value is null, drop those rows. -/
def dropUnparseable (di : Nat) (rows : List (List Cell)) : List (List Cell) :=
  if rows.any (fun r => cellAt r di == Cell.na) then
    rows.filter (fun r => !(cellAt r di == Cell.na))
  else rows

/-- Row ordering by the `Date` column, the key of `sort_values`. -/
def dateLe (di : Nat) (a b : List Cell) : Prop :=
  rowKey di a ≤ rowKey di b

instance (di : Nat) : DecidableRel (dateLe di) :=
  fun a b => Nat.decLe (rowKey di a) (rowKey di b)

instance (di : Nat) : IsTotal (List Cell) (dateLe di) :=
  ⟨fun a b => Nat.le_total (rowKey di a) (rowKey di b)⟩

instance (di : Nat) : IsTrans (List Cell) (dateLe di) :=
  ⟨fun _ _ _ => Nat.le_trans⟩

/-- `df.sort_values(by="Date")` (source line 94), modelled as a stable
sort on the timestamp key.  pandas' default sorting kind is `quicksort`,
which is not stable; `npyArgsort` below embeds that algorithm to analyse
the difference on tied keys. -/
def sortByDate (di : Nat) (rows : List (List Cell)) : List (List Cell) :=
  List.insertionSort (dateLe di) rows

/-- `df.drop_duplicates(subset=["Date"], keep="first")` (source
line 117): keep the first row of each timestamp, in row order. -/
def dedupFirst (di : Nat) : List Nat → List (List Cell) → List (List Cell)
  | _, [] => []
  | seen, r :: rs =>
    if rowKey di r ∈ seen then dedupFirst di seen rs
    else r :: dedupFirst di (rowKey di r :: seen) rs

/-- Source lines 98-118: duplicates are removed only under the
`df.duplicated(subset=["Date"]).any()` check. -/
def dedupStage (di : Nat) (rows : List (List Cell)) : List (List Cell) :=
  if (rows.map (rowKey di)).Nodup then rows else dedupFirst di [] rows

/-- The fatal pipeline outcomes surfaced to the shell. -/
inductive PipeError where
  | missingTimestampColumn

deriving instance DecidableEq, Repr for PipeError

/-- Source lines 66-124: with a `Date` column, force it to datetime,
drop unparseable rows, report ordering anomalies (display-only, lines
78-91), sort, and remove duplicate timestamps; without one, the run
aborts (`st.error` + `st.stop`) and no table is produced. -/
def resolveDate (parse : String → Option Nat) (t : Table) :
    Except PipeError Table :=
  match colIdx? t "Date" with
  | some di =>
    .ok { header := t.header,
          rows := dedupStage di (sortByDate di
            (dropUnparseable di (parseDateColumn parse di t.rows))) }
  | none => .error PipeError.missingTimestampColumn

/-- The cleaning pipeline: normalize the schema, build timestamps, then
order and deduplicate.  The result is the "Processed" table of the app
(the input of the range filter and of `to_csv`). -/
def pipeline (parse : String → Option Nat) (t : Table) :
    Except PipeError Table :=
  resolveDate parse (combineDateTime parse (cleanColumns t)).1

/-- `pd.to_datetime(date)` for a calendar date: midnight of that day,
with days counted as 86400 seconds. -/
def dayStart (d : Nat) : Nat :=
  d * 86400

/-- Range Filter (source lines 134-140): with exactly two endpoints the
rows between the two midnights (inclusive) are kept; any other shape of
`date_range` leaves the table untouched.  `di` is the position of the
`Date` column of the cleaned table. -/
def rangeFilter (di : Nat) (t : Table) (dateRange : List Nat) : Table :=
  if dateRange.length = 2 then
    let s := dateRange.getD 0 0
    let e := dateRange.getD 1 0
    { header := t.header,
      rows := t.rows.filter (fun r =>
        decide (dayStart s ≤ rowKey di r) && decide (rowKey di r ≤ dayStart e)) }
  else t

/-- The round trip of one cell through `to_csv(index=False,
date_format="%m/%d/%Y %H:%M")` followed by `read_csv`: text survives
unchanged, an empty field reads back as `NaN`, and a timestamp is
rendered by the date format `fmt` and read back as text.  `fmt` stands
for the fixed format `"%m/%d/%Y %H:%M"`; the theorems characterise it by
`parse (fmt n) = some (n / 60 * 60)` (minute truncation) and
`fmt n ≠ ""`. -/
def Cell.roundtrip (fmt : Nat → String) : Cell → Cell
  | .str s => if s = "" then Cell.na else Cell.str s
  | .ts n => if fmt n = "" then Cell.na else Cell.str (fmt n)
  | .na => Cell.na

/-- Serialize a table with the fixed date format and re-ingest the text
(source lines 150-154 composed with line 21). -/
def reingestTable (fmt : Nat → String) (t : Table) : Table :=
  { header := t.header, rows := t.rows.map (List.map (Cell.roundtrip fmt)) }

/-- A field as delivered by `read_csv`: missing, or non-empty text.
Such a field is a fixed point of the serialize-and-reingest round trip. -/
def Cell.isRaw : Cell → Bool
  | .na => true
  | .str s => s != ""
  | .ts _ => false

/-- A table as delivered by `read_csv`: every field is either missing or
a non-empty text cell. -/
def Table.IsRaw (t : Table) : Prop :=
  ∀ r ∈ t.rows, ∀ c ∈ r, c.isRaw = true

/-- The timestamp the pipeline assigns to one already-normalized row:
through the `Date`+`Time` concatenation when both columns exist, else by
parsing the `Date` cell directly. -/
def rowParsedTs (parse : String → Option Nat) (t1 : Table) (r : List Cell) :
    Option Nat :=
  match colIdx? t1 "Date", colIdx? t1 "Time" with
  | some di, some ti => parse (concatDT di ti r)
  | some di, none => (cellAt r di).toDatetimeOpt parse
  | none, _ => none

/-- Spec quantity `unparseable_rows`: rows of the normalized table whose
timestamp fails to parse. -/
def unparseableCount (parse : String → Option Nat) (t1 : Table) : Nat :=
  t1.rows.countP (fun r => (rowParsedTs parse t1 r).isNone)

/-- The successfully parsed timestamps of the normalized table, in row
order (with multiplicity). -/
def parsedTsList (parse : String → Option Nat) (t1 : Table) : List Nat :=
  t1.rows.filterMap (rowParsedTs parse t1)

/-- Spec quantity `duplicate_rows - 1 per duplicate group`: parsed rows
in excess of one per distinct timestamp. -/
def duplicateExcess (parse : String → Option Nat) (t1 : Table) : Nat :=
  (parsedTsList parse t1).length - (parsedTsList parse t1).dedup.length

/-- Spec-side description of the combine step on one row: on parse
success of `Date + " " + Time`, the row with the parsed timestamp stored
in the `Date` column and the `Time` column dropped; `none` for a row the
stage discards. -/
def combinedRowSpec (parse : String → Option Nat) (hs : List String)
    (di ti : Nat) (r : List Cell) : Option (List Cell) :=
  match parse (concatDT di ti r) with
  | some n => some (dropNamed "Time" hs (setCell r di (Cell.ts n)))
  | none => none

/-! ## numpy's argsort introsort

`df.sort_values(by="Date")` leaves `kind` at its default `"quicksort"`,
which pandas hands to `np.argsort`.  The following is a faithful
embedding of numpy's scalar introsort for index sorting (`aquicksort_`
in `numpy/core/src/npysort/quicksort.c.src`): median-of-3 pivoting with
a Hoare-style partition over an index array once a span exceeds
`SMALL_QUICKSORT = 15` elements, and a (stable) insertion sort on the
small leaves.  The heapsort depth-limit fallback cannot trigger at the
sizes analysed here (it needs more than `2 * log2 n` partitions), so it
is omitted; the bounded recursion below is given ample fuel and never
exhausts it on the inputs considered. -/

/-- Key of the position `i` of the index array `pos` under values `v`. -/
def npyKey (v pos : List Nat) (i : Nat) : Nat :=
  v.getD (pos.getD i 0) 0

/-- Swap two positions of the index array. -/
def lswap (l : List Nat) (i j : Nat) : List Nat :=
  (l.set i (l.getD j 0)).set j (l.getD i 0)

/-- `do ++pi; while (v[*pi] < vp)` of the partition loop. -/
def npyAdvance (v pos : List Nat) (vp : Nat) : Nat → Nat → Nat
  | 0, pi => pi + 1
  | f + 1, pi =>
    if npyKey v pos (pi + 1) < vp then npyAdvance v pos vp f (pi + 1) else pi + 1

/-- `do --pj; while (vp < v[*pj])` of the partition loop. -/
def npyRetreat (v pos : List Nat) (vp : Nat) : Nat → Nat → Nat
  | 0, pj => pj - 1
  | f + 1, pj =>
    if vp < npyKey v pos (pj - 1) then npyRetreat v pos vp f (pj - 1) else pj - 1

/-- The Hoare partition sweep: advance from the left, retreat from the
right, swap while the cursors have not crossed; returns the final index
array and the crossing point `pi`. -/
def npyPartitionLoop (v : List Nat) (vp : Nat) :
    Nat → Nat → Nat → List Nat → List Nat × Nat
  | 0, pi, _, pos => (pos, pi)
  | f + 1, pi, pj, pos =>
    let pi' := npyAdvance v pos vp (pos.length + 1) pi
    let pj' := npyRetreat v pos vp (pos.length + 1) pj
    if pj' ≤ pi' then (pos, pi')
    else npyPartitionLoop v vp f pi' pj' (lswap pos pi' pj')

/-- The final insertion sort of a leaf `[pl, pr]`: shift larger keys
right, then place the saved index. -/
def npyInsertInner (v pos : List Nat) (pl vi : Nat) : Nat → Nat → List Nat
  | 0, pj => pos.set pj vi
  | f + 1, pj =>
    if pl < pj ∧ v.getD vi 0 < npyKey v pos (pj - 1) then
      npyInsertInner v (pos.set pj (pos.getD (pj - 1) 0)) pl vi f (pj - 1)
    else pos.set pj vi

/-- The insertion-sort pass over a leaf: `for (pi = pl + 1; pi <= pr)`. -/
def npyInsertLoop (v : List Nat) (pl : Nat) : Nat → Nat → List Nat → List Nat
  | 0, _, pos => pos
  | f + 1, pi, pos =>
    npyInsertLoop v pl f (pi + 1)
      (npyInsertInner v pos pl (pos.getD pi 0) (pos.length + 1) pi)

/-- One introsort call on the span `[pl, pr]` of the index array:
partition while the span exceeds `SMALL_QUICKSORT = 15`, insertion sort
on the leaves. -/
def npyAQuicksort (v : List Nat) : Nat → Nat → Nat → List Nat → List Nat
  | 0, _, _, pos => pos
  | f + 1, pl, pr, pos =>
    if 15 < pr - pl then
      let pm := pl + (pr - pl) / 2
      let pos1 := if npyKey v pos pm < npyKey v pos pl then lswap pos pm pl else pos
      let pos2 := if npyKey v pos1 pr < npyKey v pos1 pm then lswap pos1 pr pm else pos1
      let pos3 := if npyKey v pos2 pm < npyKey v pos2 pl then lswap pos2 pm pl else pos2
      let vp := npyKey v pos3 pm
      let pos4 := lswap pos3 pm (pr - 1)
      let res := npyPartitionLoop v vp (pos.length + 1) pl (pr - 1) pos4
      let pos5 := res.1
      let pi := res.2
      npyAQuicksort v f pl (pi - 1) (npyAQuicksort v f (pi + 1) pr (lswap pos5 pi (pr - 1)))
    else
      npyInsertLoop v pl (pr - pl) (pl + 1) pos

/-- `np.argsort(v, kind="quicksort")`: the permutation of row positions
produced by numpy's introsort, which `sort_values` applies to the rows. -/
def npyArgsort (v : List Nat) : List Nat :=
  npyAQuicksort v (v.length + 1) 0 (v.length - 1) (List.range v.length)

/-! ## Basic lemmas about stripping and the normalizer -/

theorem dropWhile_self_idem (p : α → Bool) (l : List α) :
    (l.dropWhile p).dropWhile p = l.dropWhile p := by
  induction l with
  | nil => simp
  | cons a l ih =>
    by_cases h : p a
    · simp [List.dropWhile_cons_of_pos h, ih]
    · simp [List.dropWhile_cons_of_neg h, h]

theorem prefix_dropWhile_eq (p : α → Bool) {l l2 : List α}
    (h : l2 <+: l.dropWhile p) : l2.dropWhile p = l2 := by
  cases l2 with
  | nil => simp
  | cons a t =>
    obtain ⟨s, hs⟩ := h
    have hidem := dropWhile_self_idem p l
    rw [← hs] at hidem
    by_cases hpa : p a
    · exfalso
      rw [List.cons_append, List.dropWhile_cons_of_pos hpa] at hidem
      have hle : ((t ++ s).dropWhile p).length ≤ (t ++ s).length :=
        (List.dropWhile_sublist p).length_le
      have hlen := congrArg List.length hidem
      rw [List.length_cons] at hlen
      omega
    · simp [List.dropWhile_cons_of_neg hpa]

theorem pyStrip_idem (s : String) : pyStrip (pyStrip s) = pyStrip s := by
  unfold pyStrip
  congr 1
  generalize s.data = d
  set w := Char.isWhitespace with hw
  set l1 := d.dropWhile w with hl1
  set l2 := (l1.reverse.dropWhile w).reverse with hl2
  have hrev : l2.reverse = l1.reverse.dropWhile w := by
    rw [hl2, List.reverse_reverse]
  have hpre : l2 <+: l1 := by
    rw [← List.reverse_suffix]
    rw [hrev]
    exact List.dropWhile_suffix w
  have hstep : l2.dropWhile w = l2 := prefix_dropWhile_eq w (l := d) hpre
  rw [hstep, hrev, dropWhile_self_idem]

theorem cleanColumns_rows (t : Table) : (cleanColumns t).rows = t.rows := by
  unfold cleanColumns
  simp only []
  split <;> rfl

theorem cleanColumns_header (t : Table) :
    (cleanColumns t).header
      = t.header.map (fun c => if pyStrip c = "Last" then "Close" else pyStrip c) := by
  unfold cleanColumns
  by_cases h : (t.header.map pyStrip).contains "Last"
  · simp only [h, if_true, List.map_map]
    rfl
  · simp only [h, Bool.false_eq_true, if_false]
    have hnl : "Last" ∉ t.header.map pyStrip := by
      intro hmem
      exact h (List.contains_iff_exists_mem_beq.mpr ⟨"Last", hmem, by simp⟩)
    refine (List.map_congr_left ?_).symm
    intro a ha
    have : pyStrip a ≠ "Last" := by
      intro heq
      exact hnl (heq ▸ List.mem_map_of_mem pyStrip ha)
    simp [this]

/-- C9: the Schema Normalizer strips leading/trailing whitespace from
every column name, renames a literal `Last` to `Close` (a no-op when no
`Last` column exists), never alters row values, and always succeeds
(it is a total function). -/
theorem c9_schema_normalizer (t : Table) :
    (cleanColumns t).header
      = t.header.map (fun c => if pyStrip c = "Last" then "Close" else pyStrip c) ∧
    (cleanColumns t).rows = t.rows :=
  ⟨cleanColumns_header t, cleanColumns_rows t⟩

/-- C10: stripping happens before the `Last` → `Close` rename, so even a
whitespace-wrapped `" Last "` column is renamed; no output column has
stripped name `Last`. -/
theorem c10_no_last_column (t : Table) :
    ∀ c ∈ (cleanColumns t).header, pyStrip c ≠ "Last" := by
  intro c hc
  rw [cleanColumns_header] at hc
  obtain ⟨x, hx, rfl⟩ := List.mem_map.mp hc
  by_cases h : pyStrip x = "Last"
  · rw [if_pos h]
    decide
  · rw [if_neg h, pyStrip_idem]
    exact h

/-- A raw table whose only column is a whitespace-wrapped `Last`. -/
def tLast : Table := { header := [" Last "], rows := [] }

theorem c10_witness :
    "Close" ∈ (cleanColumns tLast).header ∧ pyStrip "Close" ≠ "Last" :=
  ⟨by decide, c10_no_last_column tLast "Close" (by decide)⟩

/-- C2: the spec's keep-first law needs a stable sort, but
`df.sort_values(by="Date")` leaves `kind` at pandas' default
`"quicksort"` (numpy's introsort), which is documented as not stable.
On a 17-row table whose row 0 holds the latest timestamp and whose rows
1-16 all share one earlier timestamp, the introsort partition scrambles
the tie: the sorted order opens with original row 8, so
`drop_duplicates(keep="first")` keeps row 8 of the tied group even
though row 1 is its earliest-uploaded member. -/
theorem c2_default_quicksort_breaks_keep_first :
    npyArgsort (2 :: List.replicate 16 1)
      = [8, 14, 13, 12, 11, 10, 9, 15, 16, 6, 5, 4, 3, 2, 1, 7, 0] ∧
    (npyArgsort (2 :: List.replicate 16 1)).getD 0 0 = 8 ∧
    (2 :: List.replicate 16 1).getD 8 0 = 1 ∧
    (2 :: List.replicate 16 1).getD 1 0 = 1 := by
  refine ⟨by decide, by decide, by decide, by decide⟩

/-- A cleaned two-row table used by the range-filter results. -/
def tDemo : Table :=
  { header := ["Date", "Close"],
    rows := [[Cell.ts 86400, Cell.str "1.0"], [Cell.ts 172800, Cell.str "2.0"]] }

/-- C5 counterexample: the source only guards `len(date_range) == 2`
(line 134); a two-endpoint range with start after end is not treated as
malformed — the filter is applied and empties the table instead of
returning it unchanged. -/
theorem c5_counterexample :
    rangeFilter 0 tDemo [2, 1] ≠ tDemo ∧ (rangeFilter 0 tDemo [2, 1]).rows = [] := by
  refine ⟨by decide, by decide⟩

/-- C5 amended: a range without exactly two endpoints leaves the cleaned
table untouched; a two-endpoint range with start > end is still applied
as an ordinary filter and yields the empty row list. -/
theorem c5_malformed_range (di : Nat) (t : Table) (dr : List Nat) :
    (dr.length ≠ 2 → rangeFilter di t dr = t) ∧
    (∀ s e, dr = [s, e] → e < s → (rangeFilter di t dr).rows = []) := by
  constructor
  · intro h
    unfold rangeFilter
    rw [if_neg h]
  · rintro s e rfl h
    have hrw : rangeFilter di t [s, e]
        = { header := t.header, rows := t.rows.filter (fun r =>
            decide (dayStart s ≤ rowKey di r) && decide (rowKey di r ≤ dayStart e)) } := rfl
    rw [hrw]
    refine List.filter_eq_nil_iff.mpr ?_
    intro r hr
    simp only [Bool.and_eq_true, decide_eq_true_eq, not_and]
    intro h1 h2
    unfold dayStart at h1 h2
    omega

theorem c5_witness :
    rangeFilter 0 tDemo [1] = tDemo ∧ (rangeFilter 0 tDemo [2, 1]).rows = [] :=
  ⟨(c5_malformed_range 0 tDemo [1]).1 (by decide),
   (c5_malformed_range 0 tDemo [2, 1]).2 2 1 rfl (by decide)⟩

/-- C6: for a well-formed range the filter keeps exactly the rows whose
timestamp lies between the two midnights inclusive — as a subsequence
(order and cell values intact, header untouched); a row exactly at the
end midnight stays, any row strictly later (e.g. later the same day) or
strictly before the start midnight goes.  The source table itself is
never modified (the stage is a pure function of it). -/
theorem c6_range_filter (di : Nat) (t : Table) (s e : Nat) (hse : s ≤ e) :
    (rangeFilter di t [s, e]).header = t.header ∧
    (rangeFilter di t [s, e]).rows
      = t.rows.filter (fun r =>
          decide (dayStart s ≤ rowKey di r) && decide (rowKey di r ≤ dayStart e)) ∧
    (rangeFilter di t [s, e]).rows.Sublist t.rows ∧
    (∀ r ∈ t.rows, rowKey di r = dayStart e → r ∈ (rangeFilter di t [s, e]).rows) ∧
    (∀ r ∈ t.rows, dayStart e < rowKey di r → r ∉ (rangeFilter di t [s, e]).rows) ∧
    (∀ r ∈ t.rows, rowKey di r < dayStart s → r ∉ (rangeFilter di t [s, e]).rows) := by
  have hrw : rangeFilter di t [s, e]
      = { header := t.header, rows := t.rows.filter (fun r =>
          decide (dayStart s ≤ rowKey di r) && decide (rowKey di r ≤ dayStart e)) } := rfl
  rw [hrw]
  refine ⟨rfl, rfl, List.filter_sublist t.rows, ?_, ?_, ?_⟩
  · intro r hr hkey
    refine List.mem_filter.mpr ⟨hr, ?_⟩
    have hs : dayStart s ≤ dayStart e := Nat.mul_le_mul_right 86400 hse
    simp only [Bool.and_eq_true, decide_eq_true_eq]
    omega
  · intro r hr hkey hmem
    have := (List.mem_filter.mp hmem).2
    simp only [Bool.and_eq_true, decide_eq_true_eq] at this
    omega
  · intro r hr hkey hmem
    have := (List.mem_filter.mp hmem).2
    simp only [Bool.and_eq_true, decide_eq_true_eq] at this
    omega

/-- A cleaned table probing both boundaries of the range filter. -/
def tWit : Table :=
  { header := ["Date", "Close"],
    rows := [[Cell.ts 0, Cell.str "1"], [Cell.ts 86400, Cell.str "2"],
             [Cell.ts 86460, Cell.str "3"], [Cell.ts 172800, Cell.str "4"]] }

theorem c6_witness :
    [Cell.ts 86400, Cell.str "2"] ∈ (rangeFilter 0 tWit [0, 1]).rows ∧
    [Cell.ts 86460, Cell.str "3"] ∉ (rangeFilter 0 tWit [0, 1]).rows := by
  have h := c6_range_filter 0 tWit 0 1 (by decide)
  exact ⟨h.2.2.2.1 _ (by decide) (by decide), h.2.2.2.2.1 _ (by decide) (by decide)⟩

/-- C7: without any `Date` column after normalization the run aborts
with the fatal missing-timestamp error (`st.error` + `st.stop`, source
lines 122-124); the `Except.error` result carries no table, cleaned or
filtered. -/
theorem c7_missing_date_fatal (parse : String → Option Nat) (t : Table)
    (h : colIdx? (cleanColumns t) "Date" = none) :
    pipeline parse t = .error PipeError.missingTimestampColumn := by
  unfold pipeline
  have h1 : (combineDateTime parse (cleanColumns t)).1 = cleanColumns t := by
    unfold combineDateTime
    rw [h]
  rw [h1]
  unfold resolveDate
  rw [h]

/-- A raw table with no date information at all. -/
def tNoDate : Table :=
  { header := ["Open", "Close"], rows := [[Cell.str "1", Cell.str "2"]] }

theorem c7_witness :
    pipeline (fun _ => none) tNoDate = .error PipeError.missingTimestampColumn :=
  c7_missing_date_fatal (fun _ => none) tNoDate (by decide)

/-! ## Cell-level and stage-level lemmas -/

theorem padTo_length (n : Nat) (r : List Cell) :
    (padTo n r).length = max r.length n := by
  unfold padTo
  rw [List.length_append, List.length_replicate]
  omega

theorem cellAt_padTo (n : Nat) (r : List Cell) (j : Nat) :
    cellAt (padTo n r) j = cellAt r j := by
  unfold cellAt padTo
  by_cases h : j < r.length
  · rw [List.getD_eq_getElem?_getD, List.getD_eq_getElem?_getD,
      List.getElem?_append_left h]
  · rw [List.getD_eq_getElem?_getD, List.getD_eq_getElem?_getD,
      List.getElem?_append_right (Nat.le_of_not_lt h)]
    by_cases h2 : j - r.length < n - r.length
    · rw [List.getElem?_replicate_of_lt h2, List.getElem?_eq_none (Nat.le_of_not_lt h)]
      rfl
    · rw [List.getElem?_eq_none, List.getElem?_eq_none (Nat.le_of_not_lt h)]
      rw [List.length_replicate]
      omega

theorem cellAt_setCell_self (r : List Cell) (i : Nat) (c : Cell) :
    cellAt (setCell r i c) i = c := by
  unfold setCell cellAt
  rw [List.getD_eq_getElem?_getD,
    List.getElem?_set_self (by rw [padTo_length]; omega)]
  rfl

theorem cellAt_setCell_ne (r : List Cell) (i : Nat) (c : Cell) (j : Nat)
    (h : j ≠ i) : cellAt (setCell r i c) j = cellAt r j := by
  unfold setCell
  have h1 : cellAt ((padTo (i + 1) r).set i c) j = cellAt (padTo (i + 1) r) j := by
    unfold cellAt
    rw [List.getD_eq_getElem?_getD, List.getD_eq_getElem?_getD,
      List.getElem?_set_ne (fun he => h he.symm)]
  rw [h1, cellAt_padTo]

/-- `dropUnparseable` is the unconditional null-row filter: when no row
is null the guarded branch is skipped but the filter would keep all rows
anyway. -/
theorem dropUnparseable_eq_filter (di : Nat) (rows : List (List Cell)) :
    dropUnparseable di rows = rows.filter (fun r => !(cellAt r di == Cell.na)) := by
  unfold dropUnparseable
  by_cases h : rows.any (fun r => cellAt r di == Cell.na)
  · rw [if_pos h]
  · rw [if_neg h]
    refine (List.filter_eq_self.mpr ?_).symm
    intro r hr
    rw [List.any_eq_true] at h
    push_neg at h
    simpa using h r hr

/-- The parsed `Date` column only carries timestamps or nulls. -/
theorem parseDateColumn_cell (parse : String → Option Nat) (di : Nat)
    (rows : List (List Cell)) :
    ∀ r ∈ parseDateColumn parse di rows,
      cellAt r di = (Cell.na) ∨ (cellAt r di).isTs = true := by
  intro r hr
  unfold parseDateColumn at hr
  obtain ⟨r0, _, rfl⟩ := List.mem_map.mp hr
  rw [cellAt_setCell_self]
  unfold Cell.toDatetimeCell
  cases hopt : (cellAt r0 di).toDatetimeOpt parse with
  | none => exact Or.inl rfl
  | some n => exact Or.inr rfl

theorem sortByDate_perm (di : Nat) (rows : List (List Cell)) :
    List.Perm (sortByDate di rows) rows :=
  List.perm_insertionSort (dateLe di) rows

theorem sortByDate_sorted (di : Nat) (rows : List (List Cell)) :
    List.Sorted (dateLe di) (sortByDate di rows) :=
  List.sorted_insertionSort (dateLe di) rows

theorem dedupFirst_sublist (di : Nat) :
    ∀ (seen : List Nat) (l : List (List Cell)),
      List.Sublist (dedupFirst di seen l) l := by
  intro seen l
  induction l generalizing seen with
  | nil => simp [dedupFirst]
  | cons r rs ih =>
    unfold dedupFirst
    by_cases h : rowKey di r ∈ seen
    · rw [if_pos h]
      exact List.Sublist.cons r (ih seen)
    · rw [if_neg h]
      exact List.Sublist.cons₂ r (ih (rowKey di r :: seen))

theorem dedupFirst_keys (di : Nat) :
    ∀ (seen : List Nat) (l : List (List Cell)),
      ((dedupFirst di seen l).map (rowKey di)).Nodup ∧
      ∀ k ∈ (dedupFirst di seen l).map (rowKey di), k ∉ seen := by
  intro seen l
  induction l generalizing seen with
  | nil => simp [dedupFirst]
  | cons r rs ih =>
    unfold dedupFirst
    by_cases h : rowKey di r ∈ seen
    · rw [if_pos h]
      exact ih seen
    · rw [if_neg h]
      obtain ⟨ihn, ihs⟩ := ih (rowKey di r :: seen)
      constructor
      · rw [List.map_cons, List.nodup_cons]
        refine ⟨fun hmem => ?_, ihn⟩
        exact (ihs _ hmem) (List.mem_cons_self _ _)
      · intro k hk
        rw [List.map_cons, List.mem_cons] at hk
        rcases hk with rfl | hk
        · exact h
        · intro hks
          exact (ihs k hk) (List.mem_cons_of_mem _ hks)

theorem dedupFirst_length (di : Nat) :
    ∀ (seen : List Nat) (l : List (List Cell)),
      (dedupFirst di seen l).length
        = ((l.map (rowKey di)).toFinset \ seen.toFinset).card := by
  intro seen l
  induction l generalizing seen with
  | nil => simp [dedupFirst]
  | cons r rs ih =>
    unfold dedupFirst
    by_cases h : rowKey di r ∈ seen
    · rw [if_pos h, ih seen]
      congr 1
      ext k
      simp only [List.map_cons, List.toFinset_cons, Finset.mem_sdiff,
        Finset.mem_insert, List.mem_toFinset]
      constructor
      · rintro ⟨hk, hks⟩
        exact ⟨Or.inr hk, hks⟩
      · rintro ⟨hk | hk, hks⟩
        · exact absurd (hk ▸ h) hks
        · exact ⟨hk, hks⟩
    · rw [if_neg h, List.length_cons, ih (rowKey di r :: seen)]
      have hset : (rs.map (rowKey di)).toFinset \ (rowKey di r :: seen).toFinset
          = (((r :: rs).map (rowKey di)).toFinset \ seen.toFinset).erase (rowKey di r) := by
        ext k
        simp only [Finset.mem_sdiff, List.mem_toFinset, List.toFinset_cons,
          Finset.mem_erase, Finset.mem_insert, List.mem_cons, List.map_cons]
        constructor
        · rintro ⟨hk, hks⟩
          push_neg at hks
          exact ⟨hks.1, Or.inr hk, hks.2⟩
        · rintro ⟨hne, hk | hk, hks⟩
          · exact absurd hk hne
          · exact ⟨hk, by push_neg; exact ⟨hne, hks⟩⟩
      rw [hset]
      have hmem : rowKey di r ∈ ((r :: rs).map (rowKey di)).toFinset \ seen.toFinset := by
        simp only [Finset.mem_sdiff, List.mem_toFinset, List.map_cons, List.mem_cons]
        exact ⟨Or.inl trivial, h⟩
      rw [Finset.card_erase_of_mem hmem]
      have hpos : 0 < (((r :: rs).map (rowKey di)).toFinset \ seen.toFinset).card :=
        Finset.card_pos.mpr ⟨rowKey di r, hmem⟩
      omega

theorem dedupStage_sublist (di : Nat) (rows : List (List Cell)) :
    List.Sublist (dedupStage di rows) rows := by
  unfold dedupStage
  by_cases h : (rows.map (rowKey di)).Nodup
  · rw [if_pos h]
  · rw [if_neg h]
    exact dedupFirst_sublist di [] rows

theorem dedupStage_keys_nodup (di : Nat) (rows : List (List Cell)) :
    ((dedupStage di rows).map (rowKey di)).Nodup := by
  unfold dedupStage
  by_cases h : (rows.map (rowKey di)).Nodup
  · rw [if_pos h]
    exact h
  · rw [if_neg h]
    exact (dedupFirst_keys di [] rows).1

theorem dedupStage_length (di : Nat) (rows : List (List Cell)) :
    (dedupStage di rows).length = (rows.map (rowKey di)).toFinset.card := by
  unfold dedupStage
  by_cases h : (rows.map (rowKey di)).Nodup
  · rw [if_pos h, List.toFinset_card_of_nodup h, List.length_map]
  · rw [if_neg h, dedupFirst_length]
    simp

/-- `resolveDate` on a table with a `Date` column, written as the stage
composition. -/
theorem resolveDate_eq (parse : String → Option Nat) (t : Table) (di : Nat)
    (hdi : colIdx? t "Date" = some di) :
    resolveDate parse t = .ok
      { header := t.header,
        rows := dedupStage di (sortByDate di
          (dropUnparseable di (parseDateColumn parse di t.rows))) } := by
  unfold resolveDate
  rw [hdi]

theorem cleaned_ts (parse : String → Option Nat) (di : Nat)
    (rows : List (List Cell)) :
    ∀ r ∈ dedupStage di (sortByDate di
        (dropUnparseable di (parseDateColumn parse di rows))),
      (cellAt r di).isTs = true := by
  intro r hr
  have h1 : r ∈ sortByDate di (dropUnparseable di (parseDateColumn parse di rows)) :=
    (dedupStage_sublist di _).subset hr
  have h2 : r ∈ dropUnparseable di (parseDateColumn parse di rows) :=
    ((sortByDate_perm di _).mem_iff).mp h1
  rw [dropUnparseable_eq_filter] at h2
  obtain ⟨h3, h4⟩ := List.mem_filter.mp h2
  rcases parseDateColumn_cell parse di rows r h3 with hna | hts
  · rw [hna] at h4
    simp at h4
  · exact hts

theorem cleaned_sorted (parse : String → Option Nat) (di : Nat)
    (rows : List (List Cell)) :
    List.Sorted (dateLe di) (dedupStage di (sortByDate di
      (dropUnparseable di (parseDateColumn parse di rows)))) :=
  List.Pairwise.sublist (dedupStage_sublist di _) (sortByDate_sorted di _)

/-- C1: whenever the pipeline succeeds (the input has a usable `Date`
column), the table leaving the Order & Duplicate Resolver has a parsed
(non-null) timestamp in every row, its timestamp column is
non-decreasing, and no two rows share a timestamp. -/
theorem c1_resolver_invariants (parse : String → Option Nat) (t out : Table)
    (h : pipeline parse t = .ok out) :
    ∃ di, colIdx? out "Date" = some di ∧
      (∀ r ∈ out.rows, (cellAt r di).isTs = true) ∧
      List.Sorted (· ≤ ·) (out.rows.map (rowKey di)) ∧
      (out.rows.map (rowKey di)).Nodup := by
  unfold pipeline at h
  cases hdi : colIdx? (combineDateTime parse (cleanColumns t)).1 "Date" with
  | none =>
    unfold resolveDate at h
    rw [hdi] at h
    exact absurd h (by simp)
  | some di =>
    rw [resolveDate_eq parse _ di hdi] at h
    injection h with h
    refine ⟨di, ?_, ?_, ?_, ?_⟩
    · rw [← h]
      exact hdi
    · rw [← h]
      exact cleaned_ts parse di _
    · rw [← h]
      exact List.Pairwise.map (rowKey di) (fun a b hab => hab)
        (cleaned_sorted parse di _)
    · rw [← h]
      exact dedupStage_keys_nodup di _

/-! ## Counting and column-drop correspondence -/

theorem length_filterMap_add_countP_none (f : α → Option β) (l : List α) :
    (l.filterMap f).length + l.countP (fun a => (f a).isNone) = l.length := by
  induction l with
  | nil => simp
  | cons a l ih =>
    cases hf : f a with
    | none =>
      rw [List.filterMap_cons_none hf, List.countP_cons, List.length_cons]
      simp [hf]
      omega
    | some b =>
      rw [List.filterMap_cons_some hf, List.countP_cons, List.length_cons,
        List.length_cons]
      simp [hf]
      omega

theorem setCell_length (r : List Cell) (i : Nat) (c : Cell) :
    (setCell r i c).length = max r.length (i + 1) := by
  unfold setCell
  rw [List.length_set, padTo_length]

/-- Dropping a label that is not `name` moves the first `name` column to
the position counting the surviving labels before it. -/
theorem colIdxAux_filter {name dropName : String} (hne : name ≠ dropName) :
    ∀ (hs : List String) (di : Nat), colIdxAux name hs = some di →
      colIdxAux name (hs.filter (fun c => c ≠ dropName))
        = some ((hs.take di).countP (fun c => c ≠ dropName)) := by
  intro hs
  induction hs with
  | nil => intro di h; exact absurd h (by simp [colIdxAux])
  | cons h hs ih =>
    intro di hidx
    unfold colIdxAux at hidx
    by_cases hh : h = name
    · rw [if_pos hh] at hidx
      injection hidx with hdi
      subst hdi
      rw [List.filter_cons_of_pos (by simp [hh, hne])]
      unfold colIdxAux
      rw [if_pos hh]
      simp
    · rw [if_neg hh] at hidx
      cases hrec : colIdxAux name hs with
      | none => rw [hrec] at hidx; exact absurd hidx (by simp)
      | some di0 =>
        rw [hrec] at hidx
        simp only [Option.map_some'] at hidx
        injection hidx with hdi
        subst hdi
        by_cases hd : h = dropName
        · rw [List.filter_cons_of_neg (by simp [hd])]
          rw [ih di0 hrec]
          simp [List.take_succ_cons, List.countP_cons, hd]
        · rw [List.filter_cons_of_pos (by simp [hd])]
          unfold colIdxAux
          rw [if_neg hh, ih di0 hrec]
          simp [List.take_succ_cons, List.countP_cons, hd]

/-- Dropping a label that is not `name` leaves the `name` cell in place,
at the shifted position. -/
theorem dropNamed_cellAt {name dropName : String} (hne : name ≠ dropName) :
    ∀ (hs : List String) (cs : List Cell) (di : Nat),
      colIdxAux name hs = some di → di < cs.length →
      cellAt (dropNamed dropName hs cs)
          ((hs.take di).countP (fun c => c ≠ dropName))
        = cellAt cs di := by
  intro hs
  induction hs with
  | nil => intro cs di h _; exact absurd h (by simp [colIdxAux])
  | cons h hs ih =>
    intro cs di hidx hlen
    cases cs with
    | nil => simp at hlen
    | cons c cs =>
      unfold colIdxAux at hidx
      by_cases hh : h = name
      · rw [if_pos hh] at hidx
        injection hidx with hdi
        subst hdi
        unfold dropNamed
        rw [if_neg (fun he => hne (hh.symm.trans he))]
        rfl
      · rw [if_neg hh] at hidx
        cases hrec : colIdxAux name hs with
        | none => rw [hrec] at hidx; exact absurd hidx (by simp)
        | some di0 =>
          rw [hrec] at hidx
          simp only [Option.map_some'] at hidx
          injection hidx with hdi
          subst hdi
          rw [List.length_cons] at hlen
          have hlt : di0 < cs.length := Nat.lt_of_succ_lt_succ hlen
          by_cases hd : h = dropName
          · have hidx2 : (h :: hs.take di0).countP (fun c => c ≠ dropName)
                = (hs.take di0).countP (fun c => c ≠ dropName) := by
              simp [List.countP_cons, hd]
            unfold dropNamed
            rw [if_pos hd, List.take_succ_cons, hidx2]
            exact ih cs di0 hrec hlt
          · have hidx2 : (h :: hs.take di0).countP (fun c => c ≠ dropName)
                = (hs.take di0).countP (fun c => c ≠ dropName) + 1 := by
              simp [List.countP_cons, hd]
            unfold dropNamed
            rw [if_neg hd, List.take_succ_cons, hidx2]
            exact ih cs di0 hrec hlt

deriving instance DecidableEq for Except

/-- Demo best-effort parser for the concrete runs: a small lookup table
of date texts (day d at time t0, in seconds). -/
def parseDemo (s : String) : Option Nat :=
  if s = "d2 t0" then some 172800
  else if s = "d1 t0" then some 86400
  else none

/-- A raw upload exercising every stage: padded column names, a legacy
`Last` column, separate `Date`/`Time` columns, an out-of-order row, a
duplicate timestamp and an unparseable row. -/
def tRaw : Table :=
  { header := [" Date ", "Time", " Last "],
    rows := [[Cell.str "d2", Cell.str "t0", Cell.str "9"],
             [Cell.str "d1", Cell.str "t0", Cell.str "7"],
             [Cell.str "d2", Cell.str "t0", Cell.str "8"],
             [Cell.str "bad", Cell.str "t0", Cell.str "5"]] }

/-- The cleaned table the pipeline produces from `tRaw`. -/
def outDemo : Table :=
  { header := ["Date", "Close"],
    rows := [[Cell.ts 86400, Cell.str "7"], [Cell.ts 172800, Cell.str "9"]] }

theorem c1_witness :
    ∃ di, colIdx? outDemo "Date" = some di ∧
      (∀ r ∈ outDemo.rows, (cellAt r di).isTs = true) ∧
      List.Sorted (· ≤ ·) (outDemo.rows.map (rowKey di)) ∧
      (outDemo.rows.map (rowKey di)).Nodup :=
  c1_resolver_invariants parseDemo tRaw outDemo (by decide)

/-! ## The combined Date+Time stage, stepwise -/

/-- The guarded drop of failed rows (source lines 50-55) equals the
unconditional null filter. -/
theorem combine_kept_eq (di : Nat) (parsedRows : List (List Cell)) :
    (if parsedRows.countP (fun r => cellAt r di == Cell.na) ≠ 0 then
        parsedRows.filter (fun r => !(cellAt r di == Cell.na))
      else parsedRows)
      = parsedRows.filter (fun r => !(cellAt r di == Cell.na)) := by
  by_cases h : parsedRows.countP (fun r => cellAt r di == Cell.na) ≠ 0
  · rw [if_pos h]
  · rw [if_neg h]
    push_neg at h
    rw [List.countP_eq_zero] at h
    refine (List.filter_eq_self.mpr ?_).symm
    intro r hr
    simpa using h r hr

/-- The reported count of dropped rows is the number of rows whose
`Date + " " + Time` text fails to parse. -/
theorem combine_invalid_count (parse : String → Option Nat) (di ti : Nat)
    (rows : List (List Cell)) :
    (rows.map (fun r => setCell r di (match parse (concatDT di ti r) with
        | some n => Cell.ts n
        | none => Cell.na))).countP (fun r => cellAt r di == Cell.na)
      = rows.countP (fun r => (parse (concatDT di ti r)).isNone) := by
  rw [List.countP_map]
  refine List.countP_congr ?_
  intro r _
  simp only [Function.comp_apply, cellAt_setCell_self]
  cases parse (concatDT di ti r) <;> simp

/-- The combined stage in closed form, given both columns exist. -/
theorem combineDateTime_eq (parse : String → Option Nat) (t : Table)
    (di ti : Nat) (hdi : colIdx? t "Date" = some di)
    (hti : colIdx? t "Time" = some ti) :
    combineDateTime parse t
      = (dropCol "Time"
          { header := t.header,
            rows := (t.rows.map (fun r =>
              setCell r di (match parse (concatDT di ti r) with
                | some n => Cell.ts n
                | none => Cell.na))).filter
                  (fun r => !(cellAt r di == Cell.na)) },
         t.rows.countP (fun r => (parse (concatDT di ti r)).isNone)) := by
  have hred : combineDateTime parse t
      = (dropCol "Time"
          { header := t.header,
            rows := (if (t.rows.map (fun r =>
                setCell r di (match parse (concatDT di ti r) with
                  | some n => Cell.ts n
                  | none => Cell.na))).countP (fun r => cellAt r di == Cell.na) ≠ 0 then
                (t.rows.map (fun r =>
                  setCell r di (match parse (concatDT di ti r) with
                    | some n => Cell.ts n
                    | none => Cell.na))).filter (fun r => !(cellAt r di == Cell.na))
              else t.rows.map (fun r =>
                setCell r di (match parse (concatDT di ti r) with
                  | some n => Cell.ts n
                  | none => Cell.na))) },
         (t.rows.map (fun r =>
            setCell r di (match parse (concatDT di ti r) with
              | some n => Cell.ts n
              | none => Cell.na))).countP (fun r => cellAt r di == Cell.na)) := by
    unfold combineDateTime
    rw [hdi, hti]
  rw [hred, combine_kept_eq, combine_invalid_count]

/-- Row-level description of the combined stage: parse successes keep
their row (timestamp stored, `Time` cells dropped), failures are
removed. -/
theorem combine_rows_eq (parse : String → Option Nat) (hs : List String)
    (di ti : Nat) (rows : List (List Cell)) :
    ((rows.map (fun r => setCell r di (match parse (concatDT di ti r) with
        | some n => Cell.ts n
        | none => Cell.na))).filter
          (fun r => !(cellAt r di == Cell.na))).map (dropNamed "Time" hs)
      = rows.filterMap (combinedRowSpec parse hs di ti) := by
  induction rows with
  | nil => rfl
  | cons r rs ih =>
    simp only [List.map_cons]
    cases hp : parse (concatDT di ti r) with
    | some n =>
      rw [List.filter_cons_of_pos (by rw [cellAt_setCell_self]; rfl)]
      simp only [List.map_cons]
      rw [List.filterMap_cons_some
        (show combinedRowSpec parse hs di ti r
            = some (dropNamed "Time" hs (setCell r di (Cell.ts n))) by
          unfold combinedRowSpec; rw [hp])]
      rw [ih]
    | none =>
      rw [List.filter_cons_of_neg (by simp [cellAt_setCell_self])]
      rw [List.filterMap_cons_none
        (show combinedRowSpec parse hs di ti r = none by
          unfold combinedRowSpec; rw [hp])]
      exact ih

/-- The `Date` cell of a surviving combined row, read at the shifted
`Date` position, is the parsed timestamp. -/
theorem combinedRowSpec_key (parse : String → Option Nat) (hs : List String)
    (di ti : Nat) (hdi : colIdxAux "Date" hs = some di) (r : List Cell) :
    (combinedRowSpec parse hs di ti r).map
        (fun r2 => cellAt r2 ((hs.take di).countP (fun c => c ≠ "Time")))
      = (parse (concatDT di ti r)).map Cell.ts := by
  unfold combinedRowSpec
  cases hp : parse (concatDT di ti r) with
  | none => rfl
  | some n =>
    simp only [Option.map_some']
    congr 1
    rw [dropNamed_cellAt (by decide : "Date" ≠ "Time") hs _ di hdi
      (by rw [setCell_length]; omega)]
    exact cellAt_setCell_self r di (Cell.ts n)

/-- The `Date` cells surviving the null filter are exactly the parse
successes, in order. -/
theorem parse_filter_keys (parse : String → Option Nat) (di : Nat)
    (rows : List (List Cell)) :
    ((parseDateColumn parse di rows).filter
        (fun r => !(cellAt r di == Cell.na))).map (fun r => cellAt r di)
      = (rows.filterMap (fun r => (cellAt r di).toDatetimeOpt parse)).map Cell.ts := by
  induction rows with
  | nil => rfl
  | cons r rs ih =>
    simp only [parseDateColumn, List.map_cons] at ih ⊢
    cases hp : (cellAt r di).toDatetimeOpt parse with
    | some n =>
      have hcell : (cellAt r di).toDatetimeCell parse = Cell.ts n := by
        unfold Cell.toDatetimeCell
        rw [hp]
      rw [hcell]
      rw [List.filter_cons_of_pos (by rw [cellAt_setCell_self]; rfl)]
      simp only [List.map_cons]
      rw [@List.filterMap_cons_some (List Cell) Nat
        (fun r => (cellAt r di).toDatetimeOpt parse) r rs n hp]
      rw [List.map_cons, cellAt_setCell_self]
      rw [ih]
    | none =>
      have hcell : (cellAt r di).toDatetimeCell parse = Cell.na := by
        unfold Cell.toDatetimeCell
        rw [hp]
      rw [hcell]
      rw [List.filter_cons_of_neg (by simp [cellAt_setCell_self])]
      rw [@List.filterMap_cons_none (List Cell) Nat
        (fun r => (cellAt r di).toDatetimeOpt parse) r rs hp]
      exact ih

/-- The row count leaving the Order & Duplicate Resolver is the number
of distinct successfully parsed timestamps. -/
theorem cleaned_length (parse : String → Option Nat) (di : Nat)
    (rows : List (List Cell)) :
    (dedupStage di (sortByDate di
      (dropUnparseable di (parseDateColumn parse di rows)))).length
      = (rows.filterMap (fun r => (cellAt r di).toDatetimeOpt parse)).dedup.length := by
  rw [dropUnparseable_eq_filter, dedupStage_length]
  have hperm := (sortByDate_perm di ((parseDateColumn parse di rows).filter
    (fun r => !(cellAt r di == Cell.na)))).map (rowKey di)
  rw [List.toFinset_eq_of_perm _ _ hperm]
  have hrk : ((parseDateColumn parse di rows).filter
      (fun r => !(cellAt r di == Cell.na))).map (rowKey di)
      = rows.filterMap (fun r => (cellAt r di).toDatetimeOpt parse) := by
    have h1 : (rowKey di) = Cell.tsVal ∘ (fun r => cellAt r di) := rfl
    rw [h1, ← List.map_map, parse_filter_keys, List.map_map]
    have h3 : (Cell.tsVal ∘ Cell.ts) = id := rfl
    rw [h3, List.map_id]
  rw [hrk, List.card_toFinset]

/-- Reading the parsed column back out of a fully-timestamped row list
recovers the key list. -/
theorem filterMap_toDatetimeOpt_of_ts (parse : String → Option Nat) (di : Nat)
    (rows : List (List Cell)) (keys : List Nat)
    (hk : rows.map (fun r => cellAt r di) = keys.map Cell.ts) :
    rows.filterMap (fun r => (cellAt r di).toDatetimeOpt parse) = keys := by
  induction rows generalizing keys with
  | nil =>
    cases keys with
    | nil => rfl
    | cons k ks => simp at hk
  | cons r rs ih =>
    cases keys with
    | nil => simp at hk
    | cons k ks =>
      simp only [List.map_cons, List.cons.injEq] at hk
      obtain ⟨hk1, hk2⟩ := hk
      rw [@List.filterMap_cons_some (List Cell) Nat
        (fun r => (cellAt r di).toDatetimeOpt parse) r rs k
        (by show Cell.toDatetimeOpt parse (cellAt r di) = some k; rw [hk1]; rfl)]
      rw [ih ks hk2]

theorem rowParsedTs_both (parse : String → Option Nat) (t1 : Table)
    (di ti : Nat) (hdi : colIdx? t1 "Date" = some di)
    (hti : colIdx? t1 "Time" = some ti) (r : List Cell) :
    rowParsedTs parse t1 r = parse (concatDT di ti r) := by
  unfold rowParsedTs
  rw [hdi, hti]

theorem rowParsedTs_dateOnly (parse : String → Option Nat) (t1 : Table)
    (di : Nat) (hdi : colIdx? t1 "Date" = some di)
    (hti : colIdx? t1 "Time" = none) (r : List Cell) :
    rowParsedTs parse t1 r = (cellAt r di).toDatetimeOpt parse := by
  unfold rowParsedTs
  rw [hdi, hti]

/-- Position and content of the `Date` column after the combined stage. -/
theorem combine_keys (parse : String → Option Nat) (t : Table) (di ti : Nat)
    (hdi : colIdx? t "Date" = some di) (hti : colIdx? t "Time" = some ti) :
    colIdx? (combineDateTime parse t).1 "Date"
        = some ((t.header.take di).countP (fun c => c ≠ "Time")) ∧
    ((combineDateTime parse t).1).rows.map
        (fun r2 => cellAt r2 ((t.header.take di).countP (fun c => c ≠ "Time")))
      = (t.rows.filterMap (fun r => parse (concatDT di ti r))).map Cell.ts := by
  constructor
  · rw [combineDateTime_eq parse t di ti hdi hti]
    exact colIdxAux_filter (by decide) t.header di hdi
  · have hrows : ((combineDateTime parse t).1).rows
        = t.rows.filterMap (combinedRowSpec parse t.header di ti) := by
      rw [combineDateTime_eq parse t di ti hdi hti]
      exact combine_rows_eq parse t.header di ti t.rows
    rw [hrows, List.map_filterMap, List.map_filterMap]
    refine List.filterMap_congr ?_
    intro r _
    exact combinedRowSpec_key parse t.header di ti hdi r

/-- C8: with both a `Date` and a `Time` column present after
normalization, the combined stage parses `Date + " " + Time` per row; a
surviving row stores the parsed timestamp in the `Date` column, every
`Time` column disappears from the output, rows whose concatenation fails
to parse are dropped, and the dropped-row count is reported. -/
theorem c8_combine_date_time (parse : String → Option Nat) (t : Table)
    (di ti : Nat) (hdi : colIdx? t "Date" = some di)
    (hti : colIdx? t "Time" = some ti) :
    ((combineDateTime parse t).1).header = t.header.filter (fun c => c ≠ "Time") ∧
    "Time" ∉ ((combineDateTime parse t).1).header ∧
    ((combineDateTime parse t).1).rows
        = t.rows.filterMap (combinedRowSpec parse t.header di ti) ∧
    (combineDateTime parse t).2
        = t.rows.countP (fun r => (parse (concatDT di ti r)).isNone) ∧
    colIdx? (combineDateTime parse t).1 "Date"
        = some ((t.header.take di).countP (fun c => c ≠ "Time")) ∧
    ((combineDateTime parse t).1).rows.map
        (fun r2 => cellAt r2 ((t.header.take di).countP (fun c => c ≠ "Time")))
      = (t.rows.filterMap (fun r => parse (concatDT di ti r))).map Cell.ts := by
  have hheader : ((combineDateTime parse t).1).header
      = t.header.filter (fun c => c ≠ "Time") := by
    rw [combineDateTime_eq parse t di ti hdi hti]
    rfl
  refine ⟨hheader, ?_, ?_, ?_, (combine_keys parse t di ti hdi hti).1,
    (combine_keys parse t di ti hdi hti).2⟩
  · rw [hheader]
    intro hmem
    have := (List.mem_filter.mp hmem).2
    simp at this
  · rw [combineDateTime_eq parse t di ti hdi hti]
    exact combine_rows_eq parse t.header di ti t.rows
  · rw [combineDateTime_eq parse t di ti hdi hti]

theorem c8_witness :
    ((combineDateTime parseDemo (cleanColumns tRaw)).1).rows
        = (cleanColumns tRaw).rows.filterMap
            (combinedRowSpec parseDemo (cleanColumns tRaw).header 0 1) ∧
    (combineDateTime parseDemo (cleanColumns tRaw)).2
        = (cleanColumns tRaw).rows.countP
            (fun r => (parseDemo (concatDT 0 1 r)).isNone) ∧
    "Time" ∉ ((combineDateTime parseDemo (cleanColumns tRaw)).1).header := by
  have h := c8_combine_date_time parseDemo (cleanColumns tRaw) 0 1
    (by decide) (by decide)
  exact ⟨h.2.2.1, h.2.2.2.1, h.2.1⟩

/-- C3: the cleaned row count is the input row count minus the
unparseable rows minus, per duplicated timestamp group, the group size
less one. -/
theorem c3_row_count_law (parse : String → Option Nat) (t out : Table)
    (h : pipeline parse t = .ok out) :
    out.rows.length
      = t.rows.length - unparseableCount parse (cleanColumns t)
          - duplicateExcess parse (cleanColumns t) := by
  have hsplit := length_filterMap_add_countP_none
    (rowParsedTs parse (cleanColumns t)) (cleanColumns t).rows
  have hdl : (parsedTsList parse (cleanColumns t)).dedup.length
      ≤ (parsedTsList parse (cleanColumns t)).length :=
    (List.dedup_sublist _).length_le
  have hlen_clean : (cleanColumns t).rows.length = t.rows.length := by
    rw [cleanColumns_rows]
  have hmain : out.rows.length
      = (parsedTsList parse (cleanColumns t)).dedup.length := by
    unfold pipeline at h
    cases hdi : colIdx? (cleanColumns t) "Date" with
    | none =>
      have hu : (combineDateTime parse (cleanColumns t)).1 = cleanColumns t := by
        unfold combineDateTime
        rw [hdi]
      rw [hu] at h
      unfold resolveDate at h
      rw [hdi] at h
      exact absurd h (by simp)
    | some di =>
      cases hti : colIdx? (cleanColumns t) "Time" with
      | none =>
        have hu : (combineDateTime parse (cleanColumns t)).1 = cleanColumns t := by
          unfold combineDateTime
          rw [hdi, hti]
        rw [hu] at h
        rw [resolveDate_eq parse _ di hdi] at h
        injection h with h
        rw [← h]
        rw [cleaned_length parse di (cleanColumns t).rows]
        congr 2
        unfold parsedTsList
        refine (List.filterMap_congr ?_).symm
        intro r _
        exact rowParsedTs_dateOnly parse (cleanColumns t) di hdi hti r
      | some ti =>
        obtain ⟨hdj, hkeys⟩ := combine_keys parse (cleanColumns t) di ti hdi hti
        rw [resolveDate_eq parse _ _ hdj] at h
        injection h with h
        rw [← h]
        rw [cleaned_length parse _ ((combineDateTime parse (cleanColumns t)).1).rows]
        rw [filterMap_toDatetimeOpt_of_ts parse _ _ _ hkeys]
        congr 2
        unfold parsedTsList
        refine (List.filterMap_congr ?_).symm
        intro r _
        exact rowParsedTs_both parse (cleanColumns t) di ti hdi hti r
  rw [hmain]
  unfold duplicateExcess unparseableCount
  rw [hlen_clean] at hsplit
  unfold parsedTsList at hdl ⊢
  omega

theorem c3_witness :
    outDemo.rows.length
      = tRaw.rows.length - unparseableCount parseDemo (cleanColumns tRaw)
          - duplicateExcess parseDemo (cleanColumns tRaw) :=
  c3_row_count_law parseDemo tRaw outDemo (by decide)

/-! ## Round-trip lemmas for idempotence -/

theorem colIdxAux_eq_none {name : String} :
    ∀ {hs : List String}, colIdxAux name hs = none ↔ name ∉ hs := by
  intro hs
  induction hs with
  | nil => simp [colIdxAux]
  | cons h hs ih =>
    unfold colIdxAux
    by_cases hh : h = name
    · rw [if_pos hh]
      simp [hh]
    · rw [if_neg hh, Option.map_eq_none', ih]
      simp only [List.mem_cons]
      constructor
      · intro hn hor
        rcases hor with he | hm
        · exact hh he.symm
        · exact hn hm
      · intro hn hm
        exact hn (Or.inr hm)

theorem cellAt_mem_or_na (r : List Cell) (j : Nat) :
    cellAt r j = Cell.na ∨ cellAt r j ∈ r := by
  unfold cellAt
  by_cases h : j < r.length
  · right
    rw [List.getD_eq_getElem?_getD, List.getElem?_eq_getElem h]
    exact List.getElem_mem h
  · left
    rw [List.getD_eq_getElem?_getD, List.getElem?_eq_none (Nat.le_of_not_lt h)]
    rfl

theorem cellAt_isRaw_of_raw_row {r : List Cell}
    (h : ∀ c ∈ r, c.isRaw = true) (j : Nat) : (cellAt r j).isRaw = true := by
  rcases cellAt_mem_or_na r j with hna | hm
  · rw [hna]
    rfl
  · exact h _ hm

theorem cellAt_lt_length_of_ne_na {r : List Cell} {j : Nat}
    (h : cellAt r j ≠ Cell.na) : j < r.length := by
  by_contra hge
  refine h ?_
  unfold cellAt
  rw [List.getD_eq_getElem?_getD, List.getElem?_eq_none (Nat.le_of_not_lt hge)]
  rfl

theorem cellAt_map_of_na_fixed {f : Cell → Cell} (hf : f Cell.na = Cell.na)
    (r : List Cell) (j : Nat) : cellAt (r.map f) j = f (cellAt r j) := by
  unfold cellAt
  by_cases h : j < r.length
  · rw [List.getD_eq_getElem?_getD, List.getD_eq_getElem?_getD,
      List.getElem?_map, List.getElem?_eq_getElem h]
    rfl
  · rw [List.getD_eq_getElem?_getD, List.getD_eq_getElem?_getD,
      List.getElem?_map, List.getElem?_eq_none (Nat.le_of_not_lt h)]
    exact hf.symm

/-- Rows agreeing in length and at every position are equal. -/
theorem row_ext {l1 l2 : List Cell} (hlen : l1.length = l2.length)
    (h : ∀ j, cellAt l1 j = cellAt l2 j) : l1 = l2 := by
  apply List.ext_getElem?
  intro j
  by_cases hj : j < l1.length
  · rw [List.getElem?_eq_getElem hj, List.getElem?_eq_getElem (hlen ▸ hj)]
    have := h j
    unfold cellAt at this
    rw [List.getD_eq_getElem?_getD, List.getD_eq_getElem?_getD,
      List.getElem?_eq_getElem hj, List.getElem?_eq_getElem (hlen ▸ hj)] at this
    simpa using this
  · rw [List.getElem?_eq_none (Nat.le_of_not_lt hj),
      List.getElem?_eq_none (hlen ▸ Nat.le_of_not_lt hj)]

theorem roundtrip_raw_fixed (fmt : Nat → String) {c : Cell}
    (h : c.isRaw = true) : Cell.roundtrip fmt c = c := by
  cases c with
  | na => rfl
  | ts n => exact absurd h (by simp [Cell.isRaw])
  | str s =>
    show (if s = "" then Cell.na else Cell.str s) = Cell.str s
    simp only [Cell.isRaw, bne_iff_ne, ne_eq] at h
    rw [if_neg h]

theorem dropNamed_raw_all {dropName : String} :
    ∀ (hs : List String) (cs : List Cell),
      (∀ j, (cellAt cs j).isRaw = true) →
      ∀ j, (cellAt (dropNamed dropName hs cs) j).isRaw = true := by
  intro hs
  induction hs with
  | nil => intro cs _ j; cases cs <;> rfl
  | cons h hs ih =>
    intro cs hraw j
    cases cs with
    | nil => rfl
    | cons c cs =>
      unfold dropNamed
      by_cases hd : h = dropName
      · rw [if_pos hd]
        exact ih cs (fun k => hraw (k + 1)) j
      · rw [if_neg hd]
        cases j with
        | zero => exact hraw 0
        | succ j2 => exact ih cs (fun k => hraw (k + 1)) j2

/-- Dropping a label other than `name` keeps every cell off the `name`
column raw, when the input row was raw off the `name` column. -/
theorem dropNamed_cellAt_raw {name dropName : String} (hne : name ≠ dropName) :
    ∀ (hs : List String) (cs : List Cell) (di : Nat),
      colIdxAux name hs = some di →
      (∀ i, i ≠ di → (cellAt cs i).isRaw = true) →
      ∀ j, j ≠ (hs.take di).countP (fun c => c ≠ dropName) →
        (cellAt (dropNamed dropName hs cs) j).isRaw = true := by
  intro hs
  induction hs with
  | nil => intro cs di h; exact absurd h (by simp [colIdxAux])
  | cons h hs ih =>
    intro cs di hidx hraw j hj
    cases cs with
    | nil => rfl
    | cons c cs =>
      unfold colIdxAux at hidx
      by_cases hh : h = name
      · rw [if_pos hh] at hidx
        injection hidx with hdi
        subst hdi
        unfold dropNamed
        rw [if_neg (fun he => hne (hh.symm.trans he))]
        cases j with
        | zero => exact absurd rfl hj
        | succ j2 =>
          exact dropNamed_raw_all hs cs
            (fun k => hraw (k + 1) (Nat.succ_ne_zero k)) j2
      · rw [if_neg hh] at hidx
        cases hrec : colIdxAux name hs with
        | none => rw [hrec] at hidx; exact absurd hidx (by simp)
        | some di0 =>
          rw [hrec] at hidx
          simp only [Option.map_some'] at hidx
          injection hidx with hdi
          subst hdi
          by_cases hd : h = dropName
          · have hcnt : ((h :: hs.take di0).countP (fun c => c ≠ dropName))
                = (hs.take di0).countP (fun c => c ≠ dropName) := by
              simp [List.countP_cons, hd]
            rw [List.take_succ_cons, hcnt] at hj
            unfold dropNamed
            rw [if_pos hd]
            exact ih cs di0 hrec (fun i hi => hraw (i + 1) (by omega)) j hj
          · have hcnt : ((h :: hs.take di0).countP (fun c => c ≠ dropName))
                = (hs.take di0).countP (fun c => c ≠ dropName) + 1 := by
              simp [List.countP_cons, hd]
            rw [List.take_succ_cons, hcnt] at hj
            unfold dropNamed
            rw [if_neg hd]
            cases j with
            | zero => exact hraw 0 (by omega)
            | succ j2 =>
              exact ih cs di0 hrec (fun i hi => hraw (i + 1) (by omega)) j2 (by omega)

/-- Normalized column names are strip-fixed and never `Last`. -/
theorem cleaned_header_names (t : Table) :
    ∀ c ∈ (cleanColumns t).header, pyStrip c = c ∧ c ≠ "Last" := by
  intro c hc
  rw [cleanColumns_header] at hc
  obtain ⟨x, _, rfl⟩ := List.mem_map.mp hc
  by_cases h : pyStrip x = "Last"
  · rw [if_pos h]
    exact ⟨by decide, by decide⟩
  · rw [if_neg h]
    exact ⟨pyStrip_idem x, h⟩

/-- The Schema Normalizer fixes its own output. -/
theorem cleanColumns_fixed {t : Table}
    (h : ∀ c ∈ t.header, pyStrip c = c ∧ c ≠ "Last") : cleanColumns t = t := by
  have hmap : t.header.map pyStrip = t.header := by
    rw [show t.header.map pyStrip = t.header.map id from
      List.map_congr_left (fun c hc => (h c hc).1), List.map_id]
  have hcon : ¬(t.header.contains "Last" = true) := by
    intro hc
    obtain ⟨b, hb, hbeq⟩ := List.contains_iff_exists_mem_beq.mp hc
    have hlb : "Last" = b := by simpa using hbeq
    exact (h b hb).2 hlb.symm
  unfold cleanColumns
  simp only []
  rw [hmap, if_neg hcon]

/-- Without a `Time` column the combined stage passes the table
through. -/
theorem combineDateTime_skip (parse : String → Option Nat) (u : Table)
    (hti : colIdx? u "Time" = none) : combineDateTime parse u = (u, 0) := by
  unfold combineDateTime
  rw [hti]
  cases colIdx? u "Date" <;> rfl

/-- Every row leaving the resolver is the reparse of some input row. -/
theorem cleaned_mem (parse : String → Option Nat) (di : Nat)
    (rows : List (List Cell)) :
    ∀ r ∈ dedupStage di (sortByDate di
        (dropUnparseable di (parseDateColumn parse di rows))),
      ∃ r0 ∈ rows, r = setCell r0 di ((cellAt r0 di).toDatetimeCell parse) := by
  intro r hr
  have h1 : r ∈ sortByDate di (dropUnparseable di (parseDateColumn parse di rows)) :=
    (dedupStage_sublist di _).subset hr
  have h2 : r ∈ dropUnparseable di (parseDateColumn parse di rows) :=
    ((sortByDate_perm di _).mem_iff).mp h1
  rw [dropUnparseable_eq_filter] at h2
  have h3 : r ∈ parseDateColumn parse di rows := (List.mem_filter.mp h2).1
  unfold parseDateColumn at h3
  obtain ⟨r0, hr0, heq⟩ := List.mem_map.mp h3
  exact ⟨r0, hr0, heq.symm⟩

/-- One cleaned row survives the serialize / re-ingest / re-parse round
trip exactly, provided its timestamp is minute-aligned and its other
cells are raw. -/
theorem reingest_row_fixed (fmt : Nat → String) (parse2 : String → Option Nat)
    (hfmt : ∀ n, parse2 (fmt n) = some (n / 60 * 60) ∧ fmt n ≠ "")
    (dj : Nat) (r : List Cell) {n : Nat}
    (hcell : cellAt r dj = Cell.ts n) (halign : n % 60 = 0)
    (hraw : ∀ j, j ≠ dj → (cellAt r j).isRaw = true) :
    setCell (r.map (Cell.roundtrip fmt)) dj
        ((cellAt (r.map (Cell.roundtrip fmt)) dj).toDatetimeCell parse2) = r := by
  have hna : Cell.roundtrip fmt Cell.na = Cell.na := rfl
  have hmapdj : cellAt (r.map (Cell.roundtrip fmt)) dj = Cell.str (fmt n) := by
    rw [cellAt_map_of_na_fixed hna, hcell]
    show (if fmt n = "" then Cell.na else Cell.str (fmt n)) = Cell.str (fmt n)
    rw [if_neg (hfmt n).2]
  have hparse : (cellAt (r.map (Cell.roundtrip fmt)) dj).toDatetimeCell parse2
      = Cell.ts n := by
    rw [hmapdj]
    show (match parse2 (fmt n) with
      | some n => Cell.ts n
      | none => Cell.na) = Cell.ts n
    rw [(hfmt n).1]
    show Cell.ts (n / 60 * 60) = Cell.ts n
    rw [Nat.div_mul_cancel (Nat.dvd_of_mod_eq_zero halign)]
  have hdjlt : dj < r.length :=
    cellAt_lt_length_of_ne_na (by rw [hcell]; simp)
  rw [hparse]
  apply row_ext
  · rw [setCell_length, List.length_map]
    exact Nat.max_eq_left (by omega)
  · intro j
    by_cases hj : j = dj
    · subst hj
      rw [cellAt_setCell_self, hcell]
    · rw [cellAt_setCell_ne _ _ _ _ hj, cellAt_map_of_na_fixed hna,
        roundtrip_raw_fixed fmt (hraw j hj)]

/-- The whole cleaned row list survives the round trip and re-parse. -/
theorem reingest_rows_fixed (fmt : Nat → String) (parse2 : String → Option Nat)
    (hfmt : ∀ n, parse2 (fmt n) = some (n / 60 * 60) ∧ fmt n ≠ "")
    (dj : Nat) (rows : List (List Cell))
    (hts : ∀ r ∈ rows, (cellAt r dj).isTs = true)
    (halign : ∀ r ∈ rows, rowKey dj r % 60 = 0)
    (hraw : ∀ r ∈ rows, ∀ j, j ≠ dj → (cellAt r j).isRaw = true) :
    parseDateColumn parse2 dj (rows.map (List.map (Cell.roundtrip fmt))) = rows := by
  unfold parseDateColumn
  rw [List.map_map]
  have hpt : ∀ r ∈ rows,
      ((fun r2 => setCell r2 dj ((cellAt r2 dj).toDatetimeCell parse2)) ∘
        List.map (Cell.roundtrip fmt)) r = id r := by
    intro r hr
    show setCell (r.map (Cell.roundtrip fmt)) dj
        ((cellAt (r.map (Cell.roundtrip fmt)) dj).toDatetimeCell parse2) = r
    cases hc : cellAt r dj with
    | str s => exact absurd (hts r hr) (by rw [hc]; simp [Cell.isTs])
    | na => exact absurd (hts r hr) (by rw [hc]; simp [Cell.isTs])
    | ts n =>
      have hkey : rowKey dj r = n := by
        unfold rowKey
        rw [hc]
        rfl
      exact reingest_row_fixed fmt parse2 hfmt dj r hc
        (by rw [← hkey]; exact halign r hr) (fun j hj => hraw r hr j hj)
  rw [List.map_congr_left hpt, List.map_id]

/-- Re-running the pipeline on the serialized cleaned output returns it
unchanged, given the output's invariants and minute alignment. -/
theorem pipeline_reingest_fixed (fmt : Nat → String)
    (parse2 : String → Option Nat) (out : Table) (dj : Nat)
    (hfmt : ∀ n, parse2 (fmt n) = some (n / 60 * 60) ∧ fmt n ≠ "")
    (hdj : colIdx? out "Date" = some dj)
    (hts : ∀ r ∈ out.rows, (cellAt r dj).isTs = true)
    (hsorted : List.Sorted (dateLe dj) out.rows)
    (hnodup : (out.rows.map (rowKey dj)).Nodup)
    (hraw : ∀ r ∈ out.rows, ∀ j, j ≠ dj → (cellAt r j).isRaw = true)
    (halign : ∀ r ∈ out.rows, rowKey dj r % 60 = 0)
    (hhdr : ∀ c ∈ out.header, pyStrip c = c ∧ c ≠ "Last")
    (htime : "Time" ∉ out.header) :
    pipeline parse2 (reingestTable fmt out) = .ok out := by
  have hclean : cleanColumns (reingestTable fmt out) = reingestTable fmt out :=
    cleanColumns_fixed (fun c hc => hhdr c hc)
  have hskip : combineDateTime parse2 (reingestTable fmt out)
      = (reingestTable fmt out, 0) :=
    combineDateTime_skip parse2 _ (colIdxAux_eq_none.mpr htime)
  unfold pipeline
  rw [hclean, hskip]
  rw [resolveDate_eq parse2 (reingestTable fmt out) dj hdj]
  have hrows2 : parseDateColumn parse2 dj (reingestTable fmt out).rows = out.rows :=
    reingest_rows_fixed fmt parse2 hfmt dj out.rows hts halign hraw
  rw [hrows2]
  have hdrop : dropUnparseable dj out.rows = out.rows := by
    rw [dropUnparseable_eq_filter]
    refine List.filter_eq_self.mpr ?_
    intro r hr
    have hts2 := hts r hr
    cases hc : cellAt r dj with
    | str s => rw [hc] at hts2; exact absurd hts2 (by simp [Cell.isTs])
    | na => rw [hc] at hts2; exact absurd hts2 (by simp [Cell.isTs])
    | ts n => rfl
  rw [hdrop]
  have hsort : sortByDate dj out.rows = out.rows :=
    List.Sorted.insertionSort_eq hsorted
  rw [hsort]
  unfold dedupStage
  rw [if_pos hnodup]
  rfl

/-- Everything the idempotence argument needs to know about a table
produced from a raw upload: position of the timestamp column, parsed
timestamps throughout, sortedness, distinct keys, raw non-timestamp
cells, strip-fixed headers without `Last`, and no `Time` column. -/
theorem pipeline_out_facts (parse : String → Option Nat) (t out : Table)
    (hraw : t.IsRaw) (h : pipeline parse t = .ok out) :
    ∃ dj, colIdx? out "Date" = some dj ∧
      (∀ r ∈ out.rows, (cellAt r dj).isTs = true) ∧
      List.Sorted (dateLe dj) out.rows ∧
      (out.rows.map (rowKey dj)).Nodup ∧
      (∀ r ∈ out.rows, ∀ j, j ≠ dj → (cellAt r j).isRaw = true) ∧
      (∀ c ∈ out.header, pyStrip c = c ∧ c ≠ "Last") ∧
      "Time" ∉ out.header := by
  unfold pipeline at h
  cases hdi : colIdx? (cleanColumns t) "Date" with
  | none =>
    have hu : (combineDateTime parse (cleanColumns t)).1 = cleanColumns t := by
      unfold combineDateTime
      rw [hdi]
    rw [hu] at h
    unfold resolveDate at h
    rw [hdi] at h
    exact absurd h (by simp)
  | some di =>
    cases hti : colIdx? (cleanColumns t) "Time" with
    | none =>
      have hu : (combineDateTime parse (cleanColumns t)).1 = cleanColumns t := by
        unfold combineDateTime
        rw [hdi, hti]
      rw [hu] at h
      rw [resolveDate_eq parse _ di hdi] at h
      injection h with h
      refine ⟨di, ?_, ?_, ?_, ?_, ?_, ?_, ?_⟩
      · rw [← h]; exact hdi
      · rw [← h]; exact cleaned_ts parse di _
      · rw [← h]; exact cleaned_sorted parse di _
      · rw [← h]; exact dedupStage_keys_nodup di _
      · rw [← h]
        intro r hr j hj
        obtain ⟨r0, hr0, rfl⟩ := cleaned_mem parse di (cleanColumns t).rows r hr
        rw [cellAt_setCell_ne _ _ _ _ hj]
        refine cellAt_isRaw_of_raw_row ?_ j
        intro c hc
        rw [cleanColumns_rows] at hr0
        exact hraw r0 hr0 c hc
      · rw [← h]
        exact cleaned_header_names t
      · rw [← h]
        show "Time" ∉ (cleanColumns t).header
        exact colIdxAux_eq_none.mp hti
    | some ti =>
      obtain ⟨hdj, hkeys⟩ := combine_keys parse (cleanColumns t) di ti hdi hti
      have hhd : ((combineDateTime parse (cleanColumns t)).1).header
          = (cleanColumns t).header.filter (fun c => c ≠ "Time") := by
        rw [combineDateTime_eq parse _ di ti hdi hti]
        rfl
      rw [resolveDate_eq parse _ _ hdj] at h
      injection h with h
      refine ⟨(((cleanColumns t).header.take di).countP (fun c => c ≠ "Time")),
        ?_, ?_, ?_, ?_, ?_, ?_, ?_⟩
      · rw [← h]; exact hdj
      · rw [← h]; exact cleaned_ts parse _ _
      · rw [← h]; exact cleaned_sorted parse _ _
      · rw [← h]; exact dedupStage_keys_nodup _ _
      · rw [← h]
        intro r hr j hj
        obtain ⟨r0, hr0, rfl⟩ := cleaned_mem parse _ _ r hr
        rw [cellAt_setCell_ne _ _ _ _ hj]
        have hrows : ((combineDateTime parse (cleanColumns t)).1).rows
            = (cleanColumns t).rows.filterMap
                (combinedRowSpec parse (cleanColumns t).header di ti) := by
          rw [combineDateTime_eq parse _ di ti hdi hti]
          exact combine_rows_eq parse _ di ti _
        rw [hrows] at hr0
        obtain ⟨rr, hrr, hspec⟩ := List.mem_filterMap.mp hr0
        unfold combinedRowSpec at hspec
        cases hp : parse (concatDT di ti rr) with
        | none => rw [hp] at hspec; exact absurd hspec (by simp)
        | some n =>
          rw [hp] at hspec
          injection hspec with hspec
          rw [← hspec]
          refine dropNamed_cellAt_raw (by decide) (cleanColumns t).header _ di
            hdi ?_ j hj
          intro i hi
          rw [cellAt_setCell_ne _ _ _ _ hi]
          refine cellAt_isRaw_of_raw_row ?_ i
          intro c hc
          rw [cleanColumns_rows] at hrr
          exact hraw rr hrr c hc
      · rw [← h]
        intro c hc
        have hc2 : c ∈ (cleanColumns t).header.filter (fun c => c ≠ "Time") := by
          rw [← hhd]
          exact hc
        exact cleaned_header_names t c (List.mem_filter.mp hc2).1
      · rw [← h]
        intro hmem
        have hm2 : "Time" ∈ (cleanColumns t).header.filter (fun c => c ≠ "Time") := by
          rw [← hhd]
          exact hmem
        have := (List.mem_filter.mp hm2).2
        simp at this

/-- Stand-in for the fixed output date format `"%m/%d/%Y %H:%M"`: an
injective rendering of the timestamp's minute (seconds are not
rendered), never empty. -/
def fmt0 (n : Nat) : String :=
  String.mk (List.replicate (n / 60 + 1) 'x')

/-- The parser applied on re-ingestion of `fmt0` text: it recovers the
minute and yields that minute's first second, as `to_datetime` does for
`"%m/%d/%Y %H:%M"` text. -/
def parseFmt0 (s : String) : Option Nat :=
  if s.data.length = 0 then none else some ((s.data.length - 1) * 60)

/-- A parser for the original upload carrying second resolution. -/
def parseSec (s : String) : Option Nat :=
  if s = "a" then some 61
  else if s = "b" then some 75
  else none

/-- A raw upload whose two timestamps differ only in seconds. -/
def tSub : Table := { header := ["Date"], rows := [[Cell.str "a"], [Cell.str "b"]] }

/-- Its cleaned output: both rows kept (the instants differ). -/
def outSub : Table := { header := ["Date"], rows := [[Cell.ts 61], [Cell.ts 75]] }

/-- C4 counterexample: the claim fails as stated.  The fixed text format
truncates seconds, so a cleaned table with two timestamps in the same
minute serializes to identical date texts; re-running the pipeline on
the serialized output finds a duplicate timestamp and drops a row,
producing a table different from the cleaned output. -/
theorem c4_counterexample :
    pipeline parseSec tSub = .ok outSub ∧
    pipeline parseFmt0 (reingestTable fmt0 outSub) ≠ .ok outSub := by
  refine ⟨by decide, by decide⟩

/-- C4 amended: idempotence holds exactly on the minute-aligned part of
the domain.  For a raw CSV upload (`t.IsRaw`) whose cleaned output has
only minute-aligned timestamps (zero seconds), serializing with the
fixed minute format and re-running the pipeline returns the cleaned
output unchanged: no rows dropped, order unchanged, no new duplicates.
The hypothesis on `fmt`/`parse2` is the semantic content of
`"%m/%d/%Y %H:%M"` followed by `to_datetime`: the text of an instant is
non-empty and re-parses to the first second of its minute. -/
theorem c4_idempotent_minute_aligned (fmt : Nat → String)
    (parse2 parse : String → Option Nat) (t out : Table)
    (hfmt : ∀ n, parse2 (fmt n) = some (n / 60 * 60) ∧ fmt n ≠ "")
    (hraw : t.IsRaw) (hok : pipeline parse t = .ok out)
    (halign : ∀ r ∈ out.rows, rowKey ((colIdx? out "Date").getD 0) r % 60 = 0) :
    pipeline parse2 (reingestTable fmt out) = .ok out := by
  obtain ⟨dj, hdj, hts, hsorted, hnodup, hraws, hhdr, htime⟩ :=
    pipeline_out_facts parse t out hraw hok
  have halign2 : ∀ r ∈ out.rows, rowKey dj r % 60 = 0 := by
    intro r hr
    have := halign r hr
    rw [hdj] at this
    exact this
  exact pipeline_reingest_fixed fmt parse2 out dj hfmt hdj hts hsorted hnodup
    hraws halign2 hhdr htime

/-- A parser for an upload with minute-aligned instants. -/
def parseMin (s : String) : Option Nat :=
  if s = "a" then some 60
  else if s = "b" then some 120
  else none

/-- A raw upload whose timestamps sit exactly on minutes. -/
def tMin : Table := { header := ["Date"], rows := [[Cell.str "a"], [Cell.str "b"]] }

/-- Its cleaned output. -/
def outMin : Table := { header := ["Date"], rows := [[Cell.ts 60], [Cell.ts 120]] }

theorem c4_witness :
    pipeline parseFmt0 (reingestTable fmt0 outMin) = .ok outMin := by
  refine c4_idempotent_minute_aligned fmt0 parseFmt0 parseMin tMin outMin
    ?_ ?_ ?_ ?_
  · intro n
    constructor
    · simp [fmt0, parseFmt0]
    · intro he
      have := congrArg String.data he
      simp [fmt0] at this
  · show ∀ r ∈ tMin.rows, ∀ c ∈ r, c.isRaw = true
    decide
  · decide
  · decide
